import Mathlib

/-!
Verification development for the `maintainercollector` aggregator
(`maintainercollector/main.go`).  The program fetches a per-project
MAINTAINERS declaration for every configured project, normalizes the
people lists, merges them into one combined model and finally
deduplicates the two pseudo-groups "Curators" and "Docs maintainers".

The Go code is embedded shallowly: Go maps become functions
`String → Option α` with pointwise update, the sequential `for` loop over
the configured projects becomes a `List.foldl`, and the fetch+decode of a
remote MAINTAINERS file (a network side effect) becomes an oracle
`fetch : String → String → Option MaintainersDepreciated` (`none` models
a fetch or decode error).
-/

namespace MaintainerCollector

/-- `defaultOrg` constant of `main.go`. -/
def defaultOrg : String := "docker"

/-- The `projects` list of `main.go` (the fixed configured project list). -/
def projects : List String :=
  ["boot2docker", "cli", "compose", "compose-on-kubernetes",
   "containerd/containerd", "distribution", "docker-bench-security",
   "docker-credential-helpers", "docker-py", "dockercraft",
   "go-connections", "go-events", "go-healthcheck", "go-p9p",
   "go-plugins-helpers", "go-units", "infrakit", "kitematic",
   "leadership", "leeroy", "libchan", "libcompose", "libkv",
   "libnetwork", "linuxkit/linuxkit", "machine", "migrator",
   "moby/datakit", "moby/hyperkit", "moby/moby", "moby/vpnkit",
   "spdystream", "swarm", "swarmkit", "swarm-frontends",
   "theupdateframework/notary", "toolbox", "v1.10-migrator"]

/-- Modelled from the spec: a people-group — an ordered list of nickname
strings (the `Org` struct used by `main.go`; its type declaration lives
outside `main.go`). -/
structure Org where
  People : List String
  deriving DecidableEq, Repr

/-- Modelled from the spec: an opaque person-profile record, passed
through unchanged by the aggregator (the `Person` struct; its declaration
lives outside `main.go`). -/
structure Person where
  blob : String
  deriving DecidableEq, Repr

/-- Modelled from the spec: the `Organization` table of a decoded
declaration, with the four optional people-groups that `main.go` reads
(`Maintainers`, `CoreMaintainers`, `DocsMaintainers`, `Curators`; a `nil`
Go pointer is `none`). -/
structure Organization where
  Maintainers : Option Org
  CoreMaintainers : Option Org
  DocsMaintainers : Option Org
  Curators : Option Org
  deriving DecidableEq, Repr

/-- Modelled from the spec: a decoded per-project MAINTAINERS declaration
(the `MaintainersDepreciated` struct): the `Organization` table plus the
nickname → person mapping.  The Go map is embedded as an association
list in decode order. -/
structure MaintainersDepreciated where
  Organization : Organization
  People : List (String × Person)
  deriving DecidableEq, Repr

/-- A Go `map[string]α` embedded as a function with `Option` values. -/
abbrev StrMap (α : Type) : Type := String → Option α

/-- Go map assignment `m[k] = v` (and deletion when `v = none`). -/
def StrMap.update {α : Type} (m : StrMap α) (k : String) (v : Option α) :
    StrMap α :=
  fun x => if x = k then v else m x

/-- The combined model (`Maintainers` struct): the group mapping and the
global person mapping built by `main`. -/
structure Maintainers where
  Org : StrMap Org
  People : StrMap Person

/-- Model of Go `strings.ToLower` on one character, restricted to the
ASCII letters that the repository's nicknames use: an upper-case ASCII
letter is shifted down by 32, everything else is unchanged. -/
def lowerChar (c : Char) : Char :=
  if 65 ≤ c.toNat ∧ c.toNat ≤ 90 then Char.ofNat (c.toNat + 32) else c

/-- Model of Go `strings.ToLower` (ASCII fragment): lower every
character of the string. -/
def lowerStr (s : String) : String := ⟨s.data.map lowerChar⟩

/-- A string is in lowercase form when lowering it changes nothing. -/
def IsLowerStr (s : String) : Prop := lowerStr s = s

/-- One step of Go's byte-wise string comparison at the character level:
`charLt a b` iff the code point of `a` is smaller. -/
def charLt (a b : Char) : Bool := a.toNat < b.toNat

/-- Go's `<=` on strings (byte-wise lexicographic, which for UTF-8 coded
strings coincides with code-point-wise lexicographic), on the character
lists. -/
def strLeB : List Char → List Char → Bool
  | [], _ => true
  | _ :: _, [] => false
  | a :: as, b :: bs => if a = b then strLeB as bs else charLt a b

/-- Go's `<=` on strings. -/
def strLe (a b : String) : Bool := strLeB a.data b.data

/-- Model of Go `sort.Strings`: sort ascending in the byte-wise
lexicographic string order `strLe`.  Any correct sort computes the same
function on a linear order, so insertion sort is used as the
embedding. -/
def sortStrings (l : List String) : List String :=
  l.insertionSort (fun a b => strLe a b = true)

/-- The loop of `removeDuplicates` (`main.go` lines 160-165): walk the
slice keeping the first occurrence of each element.  The Go code keeps a
`seens` set alongside `uniqs`; since both always hold exactly the same
elements, membership in the accumulated `uniqs` is the same test. -/
def removeDuplicatesLoop : List String → List String → List String
  | [], uniqs => uniqs
  | e :: rest, uniqs =>
    if e ∈ uniqs then removeDuplicatesLoop rest uniqs
    else removeDuplicatesLoop rest (uniqs ++ [e])

/-- `removeDuplicates` of `main.go`: drop duplicates (first occurrence
kept), then `sort.Strings` the result. -/
def removeDuplicates (slice : List String) : List String :=
  sortStrings (removeDuplicatesLoop slice [])

/-- Model of Go `strings.SplitN(s, "/", 2)` restricted to what
`getProjectOrg` needs: split at the first `'/'`, returning `none` when
there is no `'/'`. -/
def splitAtFirstSlash : List Char → Option (List Char × List Char)
  | [] => none
  | c :: cs =>
    if c = '/' then some ([], cs)
    else
      match splitAtFirstSlash cs with
      | none => none
      | some (a, b) => some (c :: a, b)

/-- `getProjectOrg` of `main.go`: split a configured project identifier
into GitHub organization and bare project name; without a `/` the
default organization is used. -/
def getProjectOrg (project : String) : String × String :=
  match splitAtFirstSlash project.data with
  | some (o, n) => (⟨o⟩, ⟨n⟩)
  | none => (defaultOrg, project)

/-- The per-project people list chosen by `main.go` lines 98-111:
the primary `Maintainers` group if present, else the legacy
`CoreMaintainers` group if present, else empty. -/
def projectGroup (m : MaintainersDepreciated) : List String :=
  match m.Organization.Maintainers with
  | some g => g.People
  | none =>
    match m.Organization.CoreMaintainers with
    | some g => g.People
    | none => []

/-- Go `orgs[k].People = append(orgs[k].People, ps...)`: append to the
people list stored under `k` (the key is always present when `main.go`
executes this). -/
def appendPeople (orgs : StrMap Org) (k : String) (ps : List String) :
    StrMap Org :=
  orgs.update k ((orgs k).map fun g => ⟨g.People ++ ps⟩)

/-- The person-mapping merge loop of `main.go` lines 130-132: insert
every entry under its lowercased nickname, overwriting. -/
def insertPeople (people : StrMap Person)
    (entries : List (String × Person)) : StrMap Person :=
  entries.foldl (fun acc e => acc.update (lowerStr e.1) (some e.2)) people

/-- The conditional pseudo-group append of `main.go` lines 121-127: when
the optional group `g` is present, append its people to the group stored
under `k`; otherwise leave the map alone. -/
def maybeAppend (orgs : StrMap Org) (k : String) (g : Option Org) :
    StrMap Org :=
  match g with
  | some gg => appendPeople orgs k gg.People
  | none => orgs

/-- The curators people a declaration carries (empty when the group is
absent). -/
def curPeople (d : MaintainersDepreciated) : List String :=
  match d.Organization.Curators with
  | some g => g.People
  | none => []

/-- The docs-maintainers people a declaration carries. -/
def docsPeople (d : MaintainersDepreciated) : List String :=
  match d.Organization.DocsMaintainers with
  | some g => g.People
  | none => []

/-- The successful-fetch body of the project loop (`main.go` lines
98-132), for the declaration `d` decoded for bare project name `name`:
store the lowercased-and-sorted per-project group under `name`, then
append to "Docs maintainers", then to "Curators", then merge the person
mapping under lowercased nicknames. -/
def processDecl (m : Maintainers) (name : String)
    (d : MaintainersDepreciated) : Maintainers :=
  { Org := maybeAppend
      (maybeAppend
        (StrMap.update m.Org name
          (some ⟨sortStrings ((projectGroup d).map lowerStr)⟩))
        "Docs maintainers" d.Organization.DocsMaintainers)
      "Curators" d.Organization.Curators,
    People := insertPeople m.People d.People }

/-- One iteration of the project loop of `main` (`main.go` lines 90-133):
split the identifier, fetch+decode, and on success run the loop body.
On a fetch/decode error the model is returned unchanged (log and
continue). -/
def processProject (fetch : String → String → Option MaintainersDepreciated)
    (m : Maintainers) (pid : String) : Maintainers :=
  match fetch (getProjectOrg pid).1 (getProjectOrg pid).2 with
  | none => m
  | some d => processDecl m (getProjectOrg pid).2 d

/-- Go `orgs[k].People = removeDuplicates(orgs[k].People)`
(`main.go` lines 135-136). -/
def dedupeGroup (orgs : StrMap Org) (k : String) : StrMap Org :=
  orgs.update k ((orgs k).map fun g => ⟨removeDuplicates g.People⟩)

/-- The combined model as `main` first builds it (`main.go` lines 80-87):
empty maps with the two pseudo-group keys pre-inserted. -/
def initMaintainers : Maintainers :=
  { Org := (StrMap.update
      (StrMap.update (fun _ => none) "Curators" (some ⟨[]⟩))
      "Docs maintainers" (some ⟨[]⟩)),
    People := fun _ => none }

/-- The whole aggregation of `main` (`main.go` lines 78-136): fold the
project loop over the configured list, then deduplicate-and-sort the two
pseudo-groups. -/
def runAggregate (fetch : String → String → Option MaintainersDepreciated)
    (ps : List String) : Maintainers :=
  let m := ps.foldl (processProject fetch) initMaintainers
  { m with Org := dedupeGroup (dedupeGroup m.Org "Curators") "Docs maintainers" }

/-- The person-map writes a single decoded declaration performs, resolved
to the final value: the last entry of `l` whose lowercased nickname is
`k` wins (later list entries overwrite earlier ones in `insertPeople`). -/
def lastWriteFor : List (String × Person) → String → Option Person
  | [], _ => none
  | e :: l, k =>
    match lastWriteFor l k with
    | some v => some v
    | none => if k = lowerStr e.1 then some e.2 else none

/-- The person-mapping entries a configured project contributes (empty on
fetch/decode failure). -/
def projWrites (fetch : String → String → Option MaintainersDepreciated)
    (pid : String) : List (String × Person) :=
  match fetch (getProjectOrg pid).1 (getProjectOrg pid).2 with
  | none => []
  | some d => d.People

/-- All person-mapping entries contributed by a project list, in
processing order. -/
def allWrites (fetch : String → String → Option MaintainersDepreciated)
    (ps : List String) : List (String × Person) :=
  (ps.map (projWrites fetch)).flatten

/-- The curators list a configured project contributes (empty on failure
or when the declaration has no curators group). -/
def curatorsOf (fetch : String → String → Option MaintainersDepreciated)
    (pid : String) : List String :=
  match fetch (getProjectOrg pid).1 (getProjectOrg pid).2 with
  | none => []
  | some d => curPeople d

/-- The docs-maintainers list a configured project contributes. -/
def docsOf (fetch : String → String → Option MaintainersDepreciated)
    (pid : String) : List String :=
  match fetch (getProjectOrg pid).1 (getProjectOrg pid).2 with
  | none => []
  | some d => docsPeople d

/-- Everything appended to the "Curators" pseudo-group over a run, in
order. -/
def curatorWrites (fetch : String → String → Option MaintainersDepreciated)
    (ps : List String) : List String :=
  (ps.map (curatorsOf fetch)).flatten

/-- Everything appended to the "Docs maintainers" pseudo-group over a
run, in order. -/
def docsWrites (fetch : String → String → Option MaintainersDepreciated)
    (ps : List String) : List String :=
  (ps.map (docsOf fetch)).flatten

/-! Concrete fixtures used to evaluate the theorems on closed inputs. -/

/-- A sample person record. -/
def person1 : Person := ⟨"profile-1"⟩

/-- Another sample person record. -/
def person2 : Person := ⟨"profile-2"⟩

/-- A declaration with a mixed-case curators group and a mixed-case
person-mapping nickname. -/
def declC1 : MaintainersDepreciated :=
  ⟨⟨none, none, none, some ⟨["Tom"]⟩⟩, [("ToM", person1)]⟩

/-- Oracle: only `docker/foo` resolves, to `declC1`. -/
def fetchC1 : String → String → Option MaintainersDepreciated :=
  fun o n => if o = "docker" && n = "foo" then some declC1 else none

/-- A declaration with both a primary and a legacy maintainers group. -/
def declC2 : MaintainersDepreciated :=
  ⟨⟨some ⟨["Alice"]⟩, some ⟨["bob"]⟩, none, none⟩, []⟩

/-- Oracle: only `docker/foo` resolves, to `declC2`. -/
def fetchC2 : String → String → Option MaintainersDepreciated :=
  fun o n => if o = "docker" && n = "foo" then some declC2 else none

/-- A declaration contributing nickname `Tom` with `person1`. -/
def declC3a : MaintainersDepreciated :=
  ⟨⟨none, none, none, none⟩, [("Tom", person1)]⟩

/-- A declaration contributing nickname `tOm` with `person2`. -/
def declC3b : MaintainersDepreciated :=
  ⟨⟨none, none, none, none⟩, [("tOm", person2)]⟩

/-- Oracle: `docker/pa` and `docker/pb` resolve to the two conflicting
declarations. -/
def fetchC3 : String → String → Option MaintainersDepreciated :=
  fun o n =>
    if o = "docker" && n = "pa" then some declC3a
    else if o = "docker" && n = "pb" then some declC3b
    else none

/-- The spec's end-to-end example declaration: primary maintainers
`["Zed", "amy"]`. -/
def declC6 : MaintainersDepreciated :=
  ⟨⟨some ⟨["Zed", "amy"]⟩, none, none, none⟩, []⟩

/-- Oracle: only `bar/baz` resolves, to `declC6`. -/
def fetchC6 : String → String → Option MaintainersDepreciated :=
  fun o n => if o = "bar" && n = "baz" then some declC6 else none

/-- Oracle where every fetch fails. -/
def fetchC7 : String → String → Option MaintainersDepreciated :=
  fun _ _ => none

/-- A declaration with curators `["Tom"]` and docs maintainers
`["Doc"]`. -/
def declC8a : MaintainersDepreciated :=
  ⟨⟨none, none, some ⟨["Doc"]⟩, some ⟨["Tom"]⟩⟩, []⟩

/-- A declaration with curators `["Tom", "Sam"]`. -/
def declC8b : MaintainersDepreciated :=
  ⟨⟨none, none, none, some ⟨["Tom", "Sam"]⟩⟩, []⟩

/-- Oracle: `docker/pa` and `docker/pb` resolve to the two curators
declarations. -/
def fetchC8 : String → String → Option MaintainersDepreciated :=
  fun o n =>
    if o = "docker" && n = "pa" then some declC8a
    else if o = "docker" && n = "pb" then some declC8b
    else none

/-- A declaration with neither a primary nor a legacy maintainers
group. -/
def declC10 : MaintainersDepreciated :=
  ⟨⟨none, none, none, none⟩, []⟩

/-- Oracle: only `docker/foo` resolves, to `declC10`. -/
def fetchC10 : String → String → Option MaintainersDepreciated :=
  fun o n => if o = "docker" && n = "foo" then some declC10 else none

/-! ### Basic lemmas -/

theorem StrMap.update_self {α : Type} (m : StrMap α) (k : String) (v : Option α) :
    StrMap.update m k v k = v := if_pos rfl

theorem StrMap.update_of_ne {α : Type} (m : StrMap α) {x k : String} (v : Option α)
    (h : x ≠ k) : StrMap.update m k v x = m x := if_neg h

theorem string_data_eq : ∀ {a b : String}, a.data = b.data → a = b
  | ⟨_⟩, ⟨_⟩, rfl => rfl

theorem char_eq_of_toNat_eq {a b : Char} (h : a.toNat = b.toNat) : a = b := by
  have ha := Char.ofNat_toNat a
  have hb := Char.ofNat_toNat b
  rw [← ha, ← hb, h]

theorem lowerChar_toNat (c : Char) :
    (lowerChar c).toNat =
      if 65 ≤ c.toNat ∧ c.toNat ≤ 90 then c.toNat + 32 else c.toNat := by
  unfold lowerChar
  split
  · rename_i h
    have hv : (c.toNat + 32).isValidChar := Or.inl (by omega)
    unfold Char.ofNat
    rw [dif_pos hv]
    rfl
  · rfl

theorem lowerChar_not_upper (c : Char) :
    ¬(65 ≤ (lowerChar c).toNat ∧ (lowerChar c).toNat ≤ 90) := by
  rw [lowerChar_toNat]
  split <;> omega

theorem lowerChar_of_not_upper {c : Char}
    (h : ¬(65 ≤ c.toNat ∧ c.toNat ≤ 90)) : lowerChar c = c := by
  unfold lowerChar
  exact if_neg h

theorem lowerChar_idem (c : Char) : lowerChar (lowerChar c) = lowerChar c :=
  lowerChar_of_not_upper (lowerChar_not_upper c)

theorem data_lowerStr (s : String) : (lowerStr s).data = s.data.map lowerChar := rfl

theorem lowerStr_idem (s : String) : lowerStr (lowerStr s) = lowerStr s := by
  apply string_data_eq
  rw [data_lowerStr, data_lowerStr, List.map_map]
  exact List.map_congr_left fun c _ => lowerChar_idem c

theorem isLowerStr_lowerStr (s : String) : IsLowerStr (lowerStr s) :=
  lowerStr_idem s

theorem strLeB_refl : ∀ as, strLeB as as = true
  | [] => rfl
  | a :: as => by
    unfold strLeB
    rw [if_pos rfl]
    exact strLeB_refl as

theorem strLeB_total : ∀ as bs, strLeB as bs = true ∨ strLeB bs as = true
  | [], _ => Or.inl rfl
  | _ :: _, [] => Or.inr rfl
  | a :: as, b :: bs => by
    unfold strLeB
    by_cases hab : a = b
    · subst hab
      rw [if_pos rfl, if_pos rfl]
      exact strLeB_total as bs
    · rw [if_neg hab, if_neg (Ne.symm hab)]
      have hne : a.toNat ≠ b.toNat := fun h => hab (char_eq_of_toNat_eq h)
      simp only [charLt, decide_eq_true_eq]
      omega

theorem strLeB_trans :
    ∀ as bs cs, strLeB as bs = true → strLeB bs cs = true → strLeB as cs = true
  | [], _, _, _, _ => rfl
  | _ :: _, [], _, h1, _ => by simp [strLeB] at h1
  | _ :: _, _ :: _, [], _, h2 => by simp [strLeB] at h2
  | a :: as, b :: bs, c :: cs, h1, h2 => by
    unfold strLeB at h1 h2 ⊢
    by_cases hab : a = b
    · subst hab
      rw [if_pos rfl] at h1
      by_cases hac : a = c
      · subst hac
        rw [if_pos rfl] at h2 ⊢
        exact strLeB_trans as bs cs h1 h2
      · rw [if_neg hac] at h2 ⊢
        exact h2
    · rw [if_neg hab] at h1
      by_cases hbc : b = c
      · subst hbc
        rw [if_neg hab]
        exact h1
      · rw [if_neg hbc] at h2
        simp only [charLt, decide_eq_true_eq] at h1 h2
        have hac : a ≠ c := fun he => by subst he; omega
        rw [if_neg hac]
        simp only [charLt, decide_eq_true_eq]
        omega

theorem strLeB_antisymm :
    ∀ as bs, strLeB as bs = true → strLeB bs as = true → as = bs
  | [], [], _, _ => rfl
  | [], _ :: _, _, h2 => by simp [strLeB] at h2
  | _ :: _, [], h1, _ => by simp [strLeB] at h1
  | a :: as, b :: bs, h1, h2 => by
    by_cases hab : a = b
    · subst hab
      unfold strLeB at h1 h2
      rw [if_pos rfl] at h1 h2
      rw [strLeB_antisymm as bs h1 h2]
    · unfold strLeB at h1 h2
      rw [if_neg hab] at h1
      rw [if_neg (Ne.symm hab)] at h2
      simp only [charLt, decide_eq_true_eq] at h1 h2
      omega

theorem strLe_refl (a : String) : strLe a a = true := strLeB_refl _

theorem strLe_total (a b : String) : strLe a b = true ∨ strLe b a = true :=
  strLeB_total _ _

theorem strLe_trans (a b c : String) :
    strLe a b = true → strLe b c = true → strLe a c = true :=
  strLeB_trans _ _ _

theorem strLe_antisymm (a b : String) :
    strLe a b = true → strLe b a = true → a = b :=
  fun h1 h2 => string_data_eq (strLeB_antisymm _ _ h1 h2)

theorem sortStrings_perm (l : List String) : List.Perm (sortStrings l) l :=
  List.perm_insertionSort _ l

theorem mem_sortStrings {x : String} {l : List String} :
    x ∈ sortStrings l ↔ x ∈ l :=
  (sortStrings_perm l).mem_iff

theorem sortStrings_sorted (l : List String) :
    List.Pairwise (fun a b => strLe a b = true) (sortStrings l) := by
  haveI : IsTotal String (fun a b => strLe a b = true) := ⟨strLe_total⟩
  haveI : IsTrans String (fun a b => strLe a b = true) := ⟨strLe_trans⟩
  exact List.sorted_insertionSort _ l

theorem sortStrings_eq_of_sorted {l : List String}
    (h : List.Pairwise (fun a b => strLe a b = true) l) : sortStrings l = l :=
  List.Sorted.insertionSort_eq h

theorem mem_removeDuplicatesLoop :
    ∀ (l u : List String) (x : String),
      x ∈ removeDuplicatesLoop l u ↔ x ∈ u ∨ x ∈ l
  | [], u, x => by simp [removeDuplicatesLoop]
  | e :: l, u, x => by
    unfold removeDuplicatesLoop
    split
    · rename_i he
      rw [mem_removeDuplicatesLoop l u x]
      simp only [List.mem_cons]
      constructor
      · rintro (h | h)
        · exact Or.inl h
        · exact Or.inr (Or.inr h)
      · rintro (h | rfl | h)
        · exact Or.inl h
        · exact Or.inl he
        · exact Or.inr h
    · rw [mem_removeDuplicatesLoop l (u ++ [e]) x]
      simp only [List.mem_append, List.mem_singleton, List.mem_cons]
      tauto

theorem nodup_removeDuplicatesLoop :
    ∀ (l u : List String), u.Nodup → (removeDuplicatesLoop l u).Nodup
  | [], _, h => h
  | e :: l, u, h => by
    unfold removeDuplicatesLoop
    split
    · exact nodup_removeDuplicatesLoop l u h
    · rename_i he
      refine nodup_removeDuplicatesLoop l (u ++ [e]) ?_
      rw [List.nodup_append]
      refine ⟨h, List.nodup_singleton e, ?_⟩
      intro a ha hae
      rw [List.mem_singleton] at hae
      exact he (hae ▸ ha)

theorem removeDuplicatesLoop_eq_of_nodup :
    ∀ (l u : List String), (u ++ l).Nodup → removeDuplicatesLoop l u = u ++ l
  | [], u, _ => by simp [removeDuplicatesLoop]
  | e :: l, u, h => by
    unfold removeDuplicatesLoop
    have he : e ∉ u := by
      rw [List.nodup_append] at h
      exact fun hm => h.2.2 hm (List.mem_cons_self e l)
    rw [if_neg he]
    have hassoc : u ++ e :: l = (u ++ [e]) ++ l := by simp
    rw [removeDuplicatesLoop_eq_of_nodup l (u ++ [e]) (by rw [← hassoc]; exact h)]
    exact hassoc.symm

theorem mem_removeDuplicates {x : String} {l : List String} :
    x ∈ removeDuplicates l ↔ x ∈ l := by
  unfold removeDuplicates
  rw [mem_sortStrings, mem_removeDuplicatesLoop]
  simp

theorem nodup_removeDuplicates (l : List String) : (removeDuplicates l).Nodup :=
  (List.Perm.nodup_iff (sortStrings_perm _)).mpr
    (nodup_removeDuplicatesLoop l [] List.nodup_nil)

theorem sorted_removeDuplicates (l : List String) :
    List.Pairwise (fun a b => strLe a b = true) (removeDuplicates l) :=
  sortStrings_sorted _

theorem removeDuplicates_idem (l : List String) :
    removeDuplicates (removeDuplicates l) = removeDuplicates l := by
  have h1 : removeDuplicatesLoop (removeDuplicates l) [] = removeDuplicates l :=
    removeDuplicatesLoop_eq_of_nodup _ []
      (by simpa using nodup_removeDuplicates l)
  calc removeDuplicates (removeDuplicates l)
      = sortStrings (removeDuplicatesLoop (removeDuplicates l) []) := rfl
    _ = sortStrings (removeDuplicates l) := by rw [h1]
    _ = removeDuplicates l := sortStrings_eq_of_sorted (sorted_removeDuplicates l)

theorem removeDuplicates_ext {l1 l2 : List String}
    (h : ∀ x, x ∈ l1 ↔ x ∈ l2) :
    removeDuplicates l1 = removeDuplicates l2 := by
  haveI : IsAntisymm String (fun a b => strLe a b = true) := ⟨strLe_antisymm⟩
  refine List.eq_of_perm_of_sorted ?_ (sorted_removeDuplicates l1)
    (sorted_removeDuplicates l2)
  refine (List.perm_ext_iff_of_nodup (nodup_removeDuplicates l1)
    (nodup_removeDuplicates l2)).mpr ?_
  intro x
  rw [mem_removeDuplicates, mem_removeDuplicates]
  exact h x

/-! ### Splitting project identifiers -/

theorem splitAtFirstSlash_of_not_mem :
    ∀ {l : List Char}, '/' ∉ l → splitAtFirstSlash l = none
  | [], _ => rfl
  | c :: cs, h => by
    unfold splitAtFirstSlash
    have hc : ¬(c = '/') := fun he => h (he ▸ List.mem_cons_self c cs)
    rw [if_neg hc,
      splitAtFirstSlash_of_not_mem fun hm => h (List.mem_cons_of_mem c hm)]

theorem splitAtFirstSlash_append :
    ∀ {l1 : List Char} (l2 : List Char), '/' ∉ l1 →
      splitAtFirstSlash (l1 ++ '/' :: l2) = some (l1, l2)
  | [], l2, _ => by simp [splitAtFirstSlash]
  | c :: cs, l2, h => by
    rw [List.cons_append]
    unfold splitAtFirstSlash
    have hc : ¬(c = '/') := fun he => h (he ▸ List.mem_cons_self c cs)
    rw [if_neg hc,
      splitAtFirstSlash_append l2 fun hm => h (List.mem_cons_of_mem c hm)]

theorem string_data_append (a b : String) :
    (a ++ b).data = a.data ++ b.data := by
  cases a
  cases b
  rfl

theorem getProjectOrg_no_slash {s : String} (h : '/' ∉ s.data) :
    getProjectOrg s = (defaultOrg, s) := by
  unfold getProjectOrg
  rw [splitAtFirstSlash_of_not_mem h]

theorem getProjectOrg_slash (a b : String) (h : '/' ∉ a.data) :
    getProjectOrg (a ++ "/" ++ b) = (a, b) := by
  unfold getProjectOrg
  have hdata : (a ++ "/" ++ b).data = a.data ++ '/' :: b.data := by
    rw [string_data_append, string_data_append]
    simp
  rw [hdata, splitAtFirstSlash_append _ h]

/-! ### Lookup lemmas for the loop body -/

theorem maybeAppend_none (orgs : StrMap Org) (k : String) :
    maybeAppend orgs k none = orgs := rfl

theorem maybeAppend_some (orgs : StrMap Org) (k : String) (gg : Org) :
    maybeAppend orgs k (some gg) =
      StrMap.update orgs k ((orgs k).map fun g => ⟨g.People ++ gg.People⟩) :=
  rfl

theorem maybeAppend_of_ne {orgs : StrMap Org} {x k : String}
    (g : Option Org) (h : x ≠ k) : maybeAppend orgs k g x = orgs x := by
  cases g with
  | none => rfl
  | some gg => rw [maybeAppend_some, StrMap.update_of_ne _ _ h]

theorem maybeAppend_isSome {orgs : StrMap Org} {k : String}
    (kk : String) (g : Option Org) (h : (orgs k).isSome = true) :
    ((maybeAppend orgs kk g) k).isSome = true := by
  cases g with
  | none => exact h
  | some gg =>
    rw [maybeAppend_some]
    by_cases hk : k = kk
    · subst hk
      rw [StrMap.update_self]
      rcases Option.isSome_iff_exists.mp h with ⟨v, hv⟩
      rw [hv]
      rfl
    · rw [StrMap.update_of_ne _ _ hk]
      exact h

theorem curPeople_eq_none {d : MaintainersDepreciated}
    (h : d.Organization.Curators = none) : curPeople d = [] := by
  simp [curPeople, h]

theorem curPeople_eq_some {d : MaintainersDepreciated} {g : Org}
    (h : d.Organization.Curators = some g) : curPeople d = g.People := by
  simp [curPeople, h]

theorem docsPeople_eq_none {d : MaintainersDepreciated}
    (h : d.Organization.DocsMaintainers = none) : docsPeople d = [] := by
  simp [docsPeople, h]

theorem docsPeople_eq_some {d : MaintainersDepreciated} {g : Org}
    (h : d.Organization.DocsMaintainers = some g) : docsPeople d = g.People := by
  simp [docsPeople, h]

theorem processDecl_org_apply (m : Maintainers) (name : String)
    (d : MaintainersDepreciated) (x : String) :
    (processDecl m name d).Org x =
      maybeAppend
        (maybeAppend
          (StrMap.update m.Org name
            (some ⟨sortStrings ((projectGroup d).map lowerStr)⟩))
          "Docs maintainers" d.Organization.DocsMaintainers)
        "Curators" d.Organization.Curators x := rfl

theorem processDecl_org_name {m : Maintainers} {name : String}
    {d : MaintainersDepreciated} (hn1 : name ≠ "Curators")
    (hn2 : name ≠ "Docs maintainers") :
    (processDecl m name d).Org name =
      some ⟨sortStrings ((projectGroup d).map lowerStr)⟩ := by
  rw [processDecl_org_apply, maybeAppend_of_ne _ hn1, maybeAppend_of_ne _ hn2,
    StrMap.update_self]

theorem processDecl_org_other {m : Maintainers} {name x : String}
    {d : MaintainersDepreciated} (h : x ≠ name) (hx1 : x ≠ "Curators")
    (hx2 : x ≠ "Docs maintainers") :
    (processDecl m name d).Org x = m.Org x := by
  rw [processDecl_org_apply, maybeAppend_of_ne _ hx1, maybeAppend_of_ne _ hx2,
    StrMap.update_of_ne _ _ h]

theorem processDecl_org_curators {m : Maintainers} {name : String}
    {d : MaintainersDepreciated} (hn : name ≠ "Curators") {c : List String}
    (hc : m.Org "Curators" = some ⟨c⟩) :
    (processDecl m name d).Org "Curators" = some ⟨c ++ curPeople d⟩ := by
  rw [processDecl_org_apply]
  have hdocs : (maybeAppend
      (StrMap.update m.Org name
        (some ⟨sortStrings ((projectGroup d).map lowerStr)⟩))
      "Docs maintainers" d.Organization.DocsMaintainers) "Curators" =
      some ⟨c⟩ := by
    rw [maybeAppend_of_ne _ (by decide), StrMap.update_of_ne _ _ (Ne.symm hn)]
    exact hc
  cases hcur : d.Organization.Curators with
  | none =>
    rw [maybeAppend_none, hdocs, curPeople_eq_none hcur, List.append_nil]
  | some gc =>
    rw [maybeAppend_some, StrMap.update_self, hdocs,
      curPeople_eq_some hcur]
    rfl

theorem processDecl_org_docs {m : Maintainers} {name : String}
    {d : MaintainersDepreciated} (hn : name ≠ "Docs maintainers")
    {c : List String} (hc : m.Org "Docs maintainers" = some ⟨c⟩) :
    (processDecl m name d).Org "Docs maintainers" =
      some ⟨c ++ docsPeople d⟩ := by
  rw [processDecl_org_apply,
    maybeAppend_of_ne _ (by decide : ("Docs maintainers" : String) ≠ "Curators")]
  have hbase : (StrMap.update m.Org name
      (some ⟨sortStrings ((projectGroup d).map lowerStr)⟩))
        "Docs maintainers" = some ⟨c⟩ := by
    rw [StrMap.update_of_ne _ _ (Ne.symm hn)]
    exact hc
  cases hdoc : d.Organization.DocsMaintainers with
  | none =>
    rw [maybeAppend_none, hbase, docsPeople_eq_none hdoc, List.append_nil]
  | some gd =>
    rw [maybeAppend_some, StrMap.update_self, hbase,
      docsPeople_eq_some hdoc]
    rfl

theorem processDecl_people {m : Maintainers} {name : String}
    {d : MaintainersDepreciated} :
    (processDecl m name d).People = insertPeople m.People d.People := rfl

theorem processProject_fetch_none
    {fetch : String → String → Option MaintainersDepreciated}
    {m : Maintainers} {pid : String}
    (h : fetch (getProjectOrg pid).1 (getProjectOrg pid).2 = none) :
    processProject fetch m pid = m := by
  unfold processProject
  rw [h]

theorem processProject_fetch_some
    {fetch : String → String → Option MaintainersDepreciated}
    {m : Maintainers} {pid : String} {d : MaintainersDepreciated}
    (h : fetch (getProjectOrg pid).1 (getProjectOrg pid).2 = some d) :
    processProject fetch m pid = processDecl m (getProjectOrg pid).2 d := by
  unfold processProject
  rw [h]

/-! ### The global person mapping as a sequence of writes -/

theorem insertPeople_cons (m0 : StrMap Person) (e : String × Person)
    (l : List (String × Person)) :
    insertPeople m0 (e :: l) =
      insertPeople (StrMap.update m0 (lowerStr e.1) (some e.2)) l := rfl

theorem insertPeople_lookup_none :
    ∀ {entries : List (String × Person)} (m0 : StrMap Person) {k : String},
      lastWriteFor entries k = none → insertPeople m0 entries k = m0 k
  | [], _, _, _ => rfl
  | e :: l, m0, k, h => by
    rw [insertPeople_cons]
    unfold lastWriteFor at h
    cases hl : lastWriteFor l k with
    | some w => simp [hl] at h
    | none =>
      simp only [hl] at h
      rw [insertPeople_lookup_none _ hl]
      by_cases hk : k = lowerStr e.1
      · rw [if_pos hk] at h
        exact absurd h (by simp)
      · exact StrMap.update_of_ne _ _ hk

theorem insertPeople_lookup_some :
    ∀ {entries : List (String × Person)} (m0 : StrMap Person)
      {k : String} {v : Person},
      lastWriteFor entries k = some v → insertPeople m0 entries k = some v
  | [], _, _, _, h => by simp [lastWriteFor] at h
  | e :: l, m0, k, v, h => by
    rw [insertPeople_cons]
    unfold lastWriteFor at h
    cases hl : lastWriteFor l k with
    | some w =>
      simp only [hl] at h
      cases h
      exact insertPeople_lookup_some _ hl
    | none =>
      simp only [hl] at h
      rw [insertPeople_lookup_none _ hl]
      by_cases hk : k = lowerStr e.1
      · rw [if_pos hk] at h
        rw [hk, StrMap.update_self]
        exact h
      · rw [if_neg hk] at h
        exact absurd h (by simp)

theorem lastWriteFor_isLower :
    ∀ {entries : List (String × Person)} {k : String} {v : Person},
      lastWriteFor entries k = some v → IsLowerStr k
  | [], _, _, h => by simp [lastWriteFor] at h
  | e :: l, k, v, h => by
    unfold lastWriteFor at h
    cases hl : lastWriteFor l k with
    | some w => exact lastWriteFor_isLower hl
    | none =>
      simp only [hl] at h
      by_cases hk : k = lowerStr e.1
      · rw [hk]
        exact isLowerStr_lowerStr _
      · rw [if_neg hk] at h
        exact absurd h (by simp)

theorem lastWriteFor_append_some {b : List (String × Person)} {k : String}
    {v : Person} :
    ∀ (a : List (String × Person)), lastWriteFor b k = some v →
      lastWriteFor (a ++ b) k = some v
  | [], h => h
  | e :: a, h => by
    rw [List.cons_append]
    unfold lastWriteFor
    rw [lastWriteFor_append_some a h]

theorem lastWriteFor_append_none {b : List (String × Person)} {k : String} :
    ∀ (a : List (String × Person)), lastWriteFor b k = none →
      lastWriteFor (a ++ b) k = lastWriteFor a k
  | [], h => h
  | e :: a, h => by
    rw [List.cons_append]
    conv_lhs => unfold lastWriteFor
    conv_rhs => unfold lastWriteFor
    rw [lastWriteFor_append_none a h]

theorem projWrites_eq_none
    {fetch : String → String → Option MaintainersDepreciated} {pid : String}
    (h : fetch (getProjectOrg pid).1 (getProjectOrg pid).2 = none) :
    projWrites fetch pid = [] := by
  simp [projWrites, h]

theorem projWrites_eq_some
    {fetch : String → String → Option MaintainersDepreciated} {pid : String}
    {d : MaintainersDepreciated}
    (h : fetch (getProjectOrg pid).1 (getProjectOrg pid).2 = some d) :
    projWrites fetch pid = d.People := by
  simp [projWrites, h]

theorem allWrites_cons (fetch : String → String → Option MaintainersDepreciated)
    (p : String) (ps : List String) :
    allWrites fetch (p :: ps) = projWrites fetch p ++ allWrites fetch ps := rfl

theorem processProject_people_some
    {fetch : String → String → Option MaintainersDepreciated}
    {m : Maintainers} {pid k : String} {v : Person}
    (h : lastWriteFor (projWrites fetch pid) k = some v) :
    (processProject fetch m pid).People k = some v := by
  cases hf : fetch (getProjectOrg pid).1 (getProjectOrg pid).2 with
  | none =>
    rw [projWrites_eq_none hf] at h
    simp [lastWriteFor] at h
  | some d =>
    rw [processProject_fetch_some hf, processDecl_people]
    rw [projWrites_eq_some hf] at h
    exact insertPeople_lookup_some _ h

theorem processProject_people_none
    {fetch : String → String → Option MaintainersDepreciated}
    {m : Maintainers} {pid k : String}
    (h : lastWriteFor (projWrites fetch pid) k = none) :
    (processProject fetch m pid).People k = m.People k := by
  cases hf : fetch (getProjectOrg pid).1 (getProjectOrg pid).2 with
  | none => rw [processProject_fetch_none hf]
  | some d =>
    rw [processProject_fetch_some hf, processDecl_people]
    rw [projWrites_eq_some hf] at h
    exact insertPeople_lookup_none _ h

theorem foldl_people_none
    {fetch : String → String → Option MaintainersDepreciated} :
    ∀ (ps : List String) (m : Maintainers) (k : String),
      lastWriteFor (allWrites fetch ps) k = none →
      (ps.foldl (processProject fetch) m).People k = m.People k
  | [], _, _, _ => rfl
  | p :: ps, m, k, h => by
    rw [List.foldl_cons]
    rw [allWrites_cons] at h
    have hrest : lastWriteFor (allWrites fetch ps) k = none := by
      cases hr : lastWriteFor (allWrites fetch ps) k with
      | none => rfl
      | some v =>
        rw [lastWriteFor_append_some _ hr] at h
        exact absurd h (by simp)
    have hproj : lastWriteFor (projWrites fetch p) k = none := by
      rw [lastWriteFor_append_none _ hrest] at h
      exact h
    rw [foldl_people_none ps _ k hrest, processProject_people_none hproj]

theorem foldl_people_some
    {fetch : String → String → Option MaintainersDepreciated} :
    ∀ (ps : List String) (m : Maintainers) {k : String} {v : Person},
      lastWriteFor (allWrites fetch ps) k = some v →
      (ps.foldl (processProject fetch) m).People k = some v
  | [], _, _, _, h => by simp [allWrites, lastWriteFor] at h
  | p :: ps, m, k, v, h => by
    rw [List.foldl_cons]
    rw [allWrites_cons] at h
    cases hr : lastWriteFor (allWrites fetch ps) k with
    | some w =>
      rw [lastWriteFor_append_some _ hr] at h
      cases h
      exact foldl_people_some ps _ hr
    | none =>
      rw [lastWriteFor_append_none _ hr] at h
      rw [foldl_people_none ps _ k hr, processProject_people_some h]

theorem runAggregate_people_apply
    (fetch : String → String → Option MaintainersDepreciated)
    (ps : List String) (k : String) :
    (runAggregate fetch ps).People k =
      (ps.foldl (processProject fetch) initMaintainers).People k := rfl

/-! ### Presence of the pseudo-group keys -/

theorem initMaintainers_curators :
    initMaintainers.Org "Curators" = some ⟨[]⟩ := by decide

theorem initMaintainers_docs :
    initMaintainers.Org "Docs maintainers" = some ⟨[]⟩ := by decide

theorem processDecl_org_isSome {m : Maintainers} {name : String}
    {d : MaintainersDepreciated} {k : String}
    (h : (m.Org k).isSome = true) :
    ((processDecl m name d).Org k).isSome = true := by
  rw [processDecl_org_apply]
  apply maybeAppend_isSome
  apply maybeAppend_isSome
  by_cases hk : k = name
  · subst hk
    rw [StrMap.update_self]
    rfl
  · rw [StrMap.update_of_ne _ _ hk]
    exact h

theorem processProject_org_isSome
    {fetch : String → String → Option MaintainersDepreciated}
    {m : Maintainers} {pid k : String}
    (h : (m.Org k).isSome = true) :
    ((processProject fetch m pid).Org k).isSome = true := by
  cases hf : fetch (getProjectOrg pid).1 (getProjectOrg pid).2 with
  | none =>
    rw [processProject_fetch_none hf]
    exact h
  | some d =>
    rw [processProject_fetch_some hf]
    exact processDecl_org_isSome h

theorem foldl_org_isSome
    {fetch : String → String → Option MaintainersDepreciated} :
    ∀ (ps : List String) (m : Maintainers) (k : String),
      (m.Org k).isSome = true →
      ((ps.foldl (processProject fetch) m).Org k).isSome = true
  | [], _, _, h => h
  | p :: ps, m, k, h => by
    rw [List.foldl_cons]
    exact foldl_org_isSome ps _ k (processProject_org_isSome h)

theorem dedupeGroup_of_ne {orgs : StrMap Org} {x k : String} (h : x ≠ k) :
    dedupeGroup orgs k x = orgs x := StrMap.update_of_ne _ _ h

theorem dedupeGroup_self {orgs : StrMap Org} {k : String} {c : List String}
    (h : orgs k = some ⟨c⟩) :
    dedupeGroup orgs k k = some ⟨removeDuplicates c⟩ := by
  unfold dedupeGroup
  rw [StrMap.update_self, h]
  rfl

theorem dedupeGroup_isSome {orgs : StrMap Org} {k : String} (kk : String)
    (h : (orgs k).isSome = true) :
    ((dedupeGroup orgs kk) k).isSome = true := by
  unfold dedupeGroup
  by_cases hk : k = kk
  · subst hk
    rw [StrMap.update_self]
    rcases Option.isSome_iff_exists.mp h with ⟨v, hv⟩
    rw [hv]
    rfl
  · rw [StrMap.update_of_ne _ _ hk]
    exact h

theorem runAggregate_org_apply
    (fetch : String → String → Option MaintainersDepreciated)
    (ps : List String) (k : String) :
    (runAggregate fetch ps).Org k =
      dedupeGroup
        (dedupeGroup ((ps.foldl (processProject fetch) initMaintainers).Org)
          "Curators") "Docs maintainers" k := rfl

/-! ### The pseudo-groups as accumulated appends -/

theorem curatorsOf_eq_none
    {fetch : String → String → Option MaintainersDepreciated} {pid : String}
    (h : fetch (getProjectOrg pid).1 (getProjectOrg pid).2 = none) :
    curatorsOf fetch pid = [] := by
  simp [curatorsOf, h]

theorem curatorsOf_eq_some
    {fetch : String → String → Option MaintainersDepreciated} {pid : String}
    {d : MaintainersDepreciated}
    (h : fetch (getProjectOrg pid).1 (getProjectOrg pid).2 = some d) :
    curatorsOf fetch pid = curPeople d := by
  simp [curatorsOf, h]

theorem docsOf_eq_none
    {fetch : String → String → Option MaintainersDepreciated} {pid : String}
    (h : fetch (getProjectOrg pid).1 (getProjectOrg pid).2 = none) :
    docsOf fetch pid = [] := by
  simp [docsOf, h]

theorem docsOf_eq_some
    {fetch : String → String → Option MaintainersDepreciated} {pid : String}
    {d : MaintainersDepreciated}
    (h : fetch (getProjectOrg pid).1 (getProjectOrg pid).2 = some d) :
    docsOf fetch pid = docsPeople d := by
  simp [docsOf, h]

theorem curatorWrites_cons
    (fetch : String → String → Option MaintainersDepreciated)
    (p : String) (ps : List String) :
    curatorWrites fetch (p :: ps) =
      curatorsOf fetch p ++ curatorWrites fetch ps := rfl

theorem docsWrites_cons
    (fetch : String → String → Option MaintainersDepreciated)
    (p : String) (ps : List String) :
    docsWrites fetch (p :: ps) = docsOf fetch p ++ docsWrites fetch ps := rfl

theorem foldl_pseudo
    {fetch : String → String → Option MaintainersDepreciated} :
    ∀ (ps : List String) (m : Maintainers),
      (∀ p ∈ ps, (getProjectOrg p).2 ≠ "Curators" ∧
        (getProjectOrg p).2 ≠ "Docs maintainers") →
      ∀ {c dl : List String},
      m.Org "Curators" = some ⟨c⟩ → m.Org "Docs maintainers" = some ⟨dl⟩ →
      (ps.foldl (processProject fetch) m).Org "Curators" =
          some ⟨c ++ curatorWrites fetch ps⟩ ∧
        (ps.foldl (processProject fetch) m).Org "Docs maintainers" =
          some ⟨dl ++ docsWrites fetch ps⟩
  | [], m, _, c, dl, hc, hd => by
    constructor <;> simp [curatorWrites, docsWrites, hc, hd]
  | p :: ps, m, hn, c, dl, hc, hd => by
    rw [List.foldl_cons]
    have hp := hn p (List.mem_cons_self p ps)
    have hn' : ∀ q ∈ ps, (getProjectOrg q).2 ≠ "Curators" ∧
        (getProjectOrg q).2 ≠ "Docs maintainers" :=
      fun q hq => hn q (List.mem_cons_of_mem p hq)
    have hc1 : (processProject fetch m p).Org "Curators" =
        some ⟨c ++ curatorsOf fetch p⟩ := by
      cases hf : fetch (getProjectOrg p).1 (getProjectOrg p).2 with
      | none =>
        rw [processProject_fetch_none hf, curatorsOf_eq_none hf,
          List.append_nil]
        exact hc
      | some d =>
        rw [processProject_fetch_some hf, curatorsOf_eq_some hf]
        exact processDecl_org_curators hp.1 hc
    have hd1 : (processProject fetch m p).Org "Docs maintainers" =
        some ⟨dl ++ docsOf fetch p⟩ := by
      cases hf : fetch (getProjectOrg p).1 (getProjectOrg p).2 with
      | none =>
        rw [processProject_fetch_none hf, docsOf_eq_none hf, List.append_nil]
        exact hd
      | some d =>
        rw [processProject_fetch_some hf, docsOf_eq_some hf]
        exact processDecl_org_docs hp.2 hd
    have hres := @foldl_pseudo fetch ps (processProject fetch m p) hn'
      (c ++ curatorsOf fetch p) (dl ++ docsOf fetch p) hc1 hd1
    rw [curatorWrites_cons, docsWrites_cons, ← List.append_assoc,
      ← List.append_assoc]
    exact hres

/-! ### Remaining helper lemmas -/

theorem allWrites_append
    (fetch : String → String → Option MaintainersDepreciated)
    (a b : List String) :
    allWrites fetch (a ++ b) = allWrites fetch a ++ allWrites fetch b := by
  simp [allWrites]

theorem mem_sortStrings_map_lower {n : String} {l : List String}
    (h : n ∈ sortStrings (l.map lowerStr)) : IsLowerStr n := by
  rw [mem_sortStrings] at h
  rcases List.mem_map.mp h with ⟨x, _, rfl⟩
  exact isLowerStr_lowerStr x

theorem projectGroup_primary {d : MaintainersDepreciated} {g : Org}
    (h : d.Organization.Maintainers = some g) : projectGroup d = g.People := by
  simp [projectGroup, h]

theorem projectGroup_legacy {d : MaintainersDepreciated} {g : Org}
    (h1 : d.Organization.Maintainers = none)
    (h2 : d.Organization.CoreMaintainers = some g) :
    projectGroup d = g.People := by
  simp [projectGroup, h1, h2]

theorem projectGroup_empty {d : MaintainersDepreciated}
    (h1 : d.Organization.Maintainers = none)
    (h2 : d.Organization.CoreMaintainers = none) : projectGroup d = [] := by
  simp [projectGroup, h1, h2]

theorem processProject_org_stored
    {fetch : String → String → Option MaintainersDepreciated}
    {m : Maintainers} {pid : String} {d : MaintainersDepreciated}
    (hf : fetch (getProjectOrg pid).1 (getProjectOrg pid).2 = some d)
    (hn1 : (getProjectOrg pid).2 ≠ "Curators")
    (hn2 : (getProjectOrg pid).2 ≠ "Docs maintainers") :
    (processProject fetch m pid).Org (getProjectOrg pid).2 =
      some ⟨sortStrings ((projectGroup d).map lowerStr)⟩ := by
  rw [processProject_fetch_some hf]
  exact processDecl_org_name hn1 hn2

theorem processDecl_lower_people {m : Maintainers} {name : String}
    {d : MaintainersDepreciated}
    (h1 : ∀ k p, m.People k = some p → IsLowerStr k) :
    ∀ k p, (processDecl m name d).People k = some p → IsLowerStr k := by
  intro k p hk
  rw [processDecl_people] at hk
  cases hl : lastWriteFor d.People k with
  | some v => exact lastWriteFor_isLower hl
  | none =>
    rw [insertPeople_lookup_none _ hl] at hk
    exact h1 k p hk

theorem processDecl_lower_org {m : Maintainers} {name : String}
    {d : MaintainersDepreciated}
    (h2 : ∀ k g, k ≠ "Curators" → k ≠ "Docs maintainers" →
      m.Org k = some g → ∀ n ∈ g.People, IsLowerStr n) :
    ∀ k g, k ≠ "Curators" → k ≠ "Docs maintainers" →
      (processDecl m name d).Org k = some g →
      ∀ n ∈ g.People, IsLowerStr n := by
  intro k g hk1 hk2 hg n hn
  by_cases hkn : k = name
  · subst hkn
    rw [processDecl_org_name hk1 hk2] at hg
    cases hg
    exact mem_sortStrings_map_lower hn
  · rw [processDecl_org_other hkn hk1 hk2] at hg
    exact h2 k g hk1 hk2 hg n hn

theorem processProject_lower_people
    {fetch : String → String → Option MaintainersDepreciated}
    {m : Maintainers} {pid : String}
    (h1 : ∀ k p, m.People k = some p → IsLowerStr k) :
    ∀ k p, (processProject fetch m pid).People k = some p → IsLowerStr k := by
  intro k p hk
  cases hf : fetch (getProjectOrg pid).1 (getProjectOrg pid).2 with
  | none =>
    rw [processProject_fetch_none hf] at hk
    exact h1 k p hk
  | some d =>
    rw [processProject_fetch_some hf] at hk
    exact processDecl_lower_people h1 k p hk

theorem processProject_lower_org
    {fetch : String → String → Option MaintainersDepreciated}
    {m : Maintainers} {pid : String}
    (h2 : ∀ k g, k ≠ "Curators" → k ≠ "Docs maintainers" →
      m.Org k = some g → ∀ n ∈ g.People, IsLowerStr n) :
    ∀ k g, k ≠ "Curators" → k ≠ "Docs maintainers" →
      (processProject fetch m pid).Org k = some g →
      ∀ n ∈ g.People, IsLowerStr n := by
  intro k g hk1 hk2 hg
  cases hf : fetch (getProjectOrg pid).1 (getProjectOrg pid).2 with
  | none =>
    rw [processProject_fetch_none hf] at hg
    exact h2 k g hk1 hk2 hg
  | some d =>
    rw [processProject_fetch_some hf] at hg
    exact processDecl_lower_org h2 k g hk1 hk2 hg

theorem foldl_lower
    {fetch : String → String → Option MaintainersDepreciated} :
    ∀ (ps : List String) (m : Maintainers),
      (∀ k p, m.People k = some p → IsLowerStr k) →
      (∀ k g, k ≠ "Curators" → k ≠ "Docs maintainers" →
        m.Org k = some g → ∀ n ∈ g.People, IsLowerStr n) →
      (∀ k p, (ps.foldl (processProject fetch) m).People k = some p →
        IsLowerStr k) ∧
      (∀ k g, k ≠ "Curators" → k ≠ "Docs maintainers" →
        (ps.foldl (processProject fetch) m).Org k = some g →
        ∀ n ∈ g.People, IsLowerStr n)
  | [], _, h1, h2 => ⟨h1, h2⟩
  | p :: ps, m, h1, h2 => by
    rw [List.foldl_cons]
    exact foldl_lower ps _ (processProject_lower_people h1)
      (processProject_lower_org h2)

theorem initMaintainers_org_other {k : String} (hk1 : k ≠ "Curators")
    (hk2 : k ≠ "Docs maintainers") : initMaintainers.Org k = none := by
  have h : initMaintainers.Org k =
      StrMap.update
        (StrMap.update (fun _ => none) "Curators" (some (Org.mk [])))
        "Docs maintainers" (some (Org.mk [])) k := rfl
  rw [h, StrMap.update_of_ne _ _ hk2, StrMap.update_of_ne _ _ hk1]

/-! ### The claims -/

/-- C1, counterexample: the claim says every nickname in every
people-group of the combined model — the "Curators" pseudo-group
included — is lowercase.  Running the aggregator on a single project
whose declaration has curators `["Tom"]` leaves `"Tom"` (not lowercase)
in the final "Curators" group, because `main.go` never lowercases the
pseudo-group appends. -/
theorem C1_counterexample :
    (runAggregate fetchC1 ["foo"]).Org "Curators" = some ⟨["Tom"]⟩ ∧
      lowerStr "Tom" ≠ "Tom" := by
  constructor
  · decide
  · decide

/-- C1, amended: every key of the final global person mapping is in
lowercase form, and every nickname in every people-group of the combined
model other than the two pseudo-groups "Curators" and
"Docs maintainers" is in lowercase form (the pseudo-groups keep the case
of the decoded curators/docs-maintainers lists). -/
theorem C1_lowercase_amended
    (fetch : String → String → Option MaintainersDepreciated)
    (ps : List String) :
    (∀ k p, (runAggregate fetch ps).People k = some p → IsLowerStr k) ∧
    (∀ k g, k ≠ "Curators" → k ≠ "Docs maintainers" →
      (runAggregate fetch ps).Org k = some g →
      ∀ n ∈ g.People, IsLowerStr n) := by
  have hinit1 : ∀ k p, initMaintainers.People k = some p → IsLowerStr k := by
    intro k p h
    exact absurd h (by simp [initMaintainers])
  have hinit2 : ∀ k g, k ≠ "Curators" → k ≠ "Docs maintainers" →
      initMaintainers.Org k = some g → ∀ n ∈ g.People, IsLowerStr n := by
    intro k g hk1 hk2 h
    rw [initMaintainers_org_other hk1 hk2] at h
    exact absurd h (by simp)
  obtain ⟨hp, ho⟩ := foldl_lower ps initMaintainers hinit1 hinit2
  constructor
  · intro k p h
    rw [runAggregate_people_apply] at h
    exact hp k p h
  · intro k g hk1 hk2 h
    rw [runAggregate_org_apply, dedupeGroup_of_ne hk2,
      dedupeGroup_of_ne hk1] at h
    exact ho k g hk1 hk2 h

/-- Witness for the amended C1, at a concrete run: the nickname `ToM`
declared by `docker/foo` ends up under the lowercase key `tom`, which the
theorem certifies to be in lowercase form. -/
theorem C1_lowercase_amended_witness : IsLowerStr "tom" :=
  (C1_lowercase_amended fetchC1 ["foo"]).1 "tom" person1 (by decide)

/-- C2: for a successfully decoded declaration, when the primary
maintainers group is present the stored per-project group is built from
it alone (whatever the legacy core-maintainers group holds, it is
ignored); the legacy group is used exactly when the primary one is
absent. -/
theorem C2_primary_over_legacy
    (fetch : String → String → Option MaintainersDepreciated)
    (m : Maintainers) (pid : String) (d : MaintainersDepreciated)
    (hf : fetch (getProjectOrg pid).1 (getProjectOrg pid).2 = some d)
    (hn1 : (getProjectOrg pid).2 ≠ "Curators")
    (hn2 : (getProjectOrg pid).2 ≠ "Docs maintainers") :
    (∀ g, d.Organization.Maintainers = some g →
      (processProject fetch m pid).Org (getProjectOrg pid).2 =
        some ⟨sortStrings (g.People.map lowerStr)⟩) ∧
    (d.Organization.Maintainers = none →
      ∀ g, d.Organization.CoreMaintainers = some g →
        (processProject fetch m pid).Org (getProjectOrg pid).2 =
          some ⟨sortStrings (g.People.map lowerStr)⟩) := by
  constructor
  · intro g hg
    rw [processProject_org_stored hf hn1 hn2, projectGroup_primary hg]
  · intro h0 g hg
    rw [processProject_org_stored hf hn1 hn2, projectGroup_legacy h0 hg]

/-- Witness for C2: with primary `["Alice"]` and legacy `["bob"]` both
present, the stored group is `["alice"]` — the legacy list is gone. -/
theorem C2_witness :
    (processProject fetchC2 initMaintainers "foo").Org "foo" =
      some ⟨["alice"]⟩ := by
  have h := (C2_primary_over_legacy fetchC2 initMaintainers "foo" declC2
    (by decide) (by decide) (by decide)).1 ⟨["Alice"]⟩ (by decide)
  rw [show (getProjectOrg "foo").2 = "foo" from by decide] at h
  rw [h]
  decide

/-- C3: last-writer-wins for the global person mapping: if project `p2`
is processed after `p1`, both contribute a person-mapping entry whose
nickname lowercases to `k`, and no later project writes `k`, then the
final entry under the lowercased key `k` is `p2`'s record. -/
theorem C3_last_writer_wins
    (fetch : String → String → Option MaintainersDepreciated)
    (l1 l2 l3 : List String) (p1 p2 k : String) (v2 : Person)
    (h1 : lastWriteFor (projWrites fetch p1) k ≠ none)
    (h2 : lastWriteFor (projWrites fetch p2) k = some v2)
    (h3 : lastWriteFor (allWrites fetch l3) k = none) :
    (runAggregate fetch (l1 ++ (p1 :: (l2 ++ (p2 :: l3))))).People k =
      some v2 := by
  rw [runAggregate_people_apply]
  apply foldl_people_some
  rw [allWrites_append]
  apply lastWriteFor_append_some
  rw [allWrites_cons]
  apply lastWriteFor_append_some
  rw [allWrites_append]
  apply lastWriteFor_append_some
  rw [allWrites_cons, lastWriteFor_append_none _ h3]
  exact h2

/-- Witness for C3: `docker/pa` declares `Tom ↦ person1`, `docker/pb`
declares `tOm ↦ person2`; after the run the key `tom` holds `person2`. -/
theorem C3_witness :
    (runAggregate fetchC3 ["pa", "pb"]).People "tom" = some person2 :=
  C3_last_writer_wins fetchC3 [] [] [] "pa" "pb" "tom" person2
    (by decide) (by decide) (by decide)

/-- C4: `removeDuplicates` always returns a lexicographically ascending
list without repetitions, and it is idempotent. -/
theorem C4_removeDuplicates_laws (l : List String) :
    List.Pairwise (fun a b => strLe a b = true) (removeDuplicates l) ∧
    (removeDuplicates l).Nodup ∧
    removeDuplicates (removeDuplicates l) = removeDuplicates l :=
  ⟨sorted_removeDuplicates l, nodup_removeDuplicates l,
    removeDuplicates_idem l⟩

/-- C5: `getProjectOrg` returns the default organization `docker`
together with the whole identifier when there is no `/`, and splits at
the first `/` otherwise. -/
theorem C5_getProjectOrg_spec (s a b : String) :
    defaultOrg = "docker" ∧
    ('/' ∉ s.data → getProjectOrg s = (defaultOrg, s)) ∧
    ('/' ∉ a.data → getProjectOrg (a ++ "/" ++ b) = (a, b)) :=
  ⟨rfl, getProjectOrg_no_slash, getProjectOrg_slash a b⟩

/-- Witness for C5: the spec's two examples. -/
theorem C5_witness :
    getProjectOrg "foo" = ("docker", "foo") ∧
      getProjectOrg "bar/baz" = ("bar", "baz") := by
  constructor
  · exact (C5_getProjectOrg_spec "foo" "bar" "baz").2.1 (by decide)
  · exact (C5_getProjectOrg_spec "foo" "bar" "baz").2.2 (by decide)

/-- C6: a successfully decoded project is stored in the combined model
under its bare project name (the org prefix of the identifier, consumed
by `getProjectOrg`, is not part of the key), and the stored group is the
declaration's chosen people list lowercased and sorted ascending; every
nickname in it is in lowercase form. -/
theorem C6_store_normalized
    (fetch : String → String → Option MaintainersDepreciated)
    (m : Maintainers) (pid : String) (d : MaintainersDepreciated)
    (hf : fetch (getProjectOrg pid).1 (getProjectOrg pid).2 = some d)
    (hn1 : (getProjectOrg pid).2 ≠ "Curators")
    (hn2 : (getProjectOrg pid).2 ≠ "Docs maintainers") :
    (processProject fetch m pid).Org (getProjectOrg pid).2 =
      some ⟨sortStrings ((projectGroup d).map lowerStr)⟩ ∧
    (∀ n ∈ sortStrings ((projectGroup d).map lowerStr), IsLowerStr n) ∧
    List.Pairwise (fun a b => strLe a b = true)
      (sortStrings ((projectGroup d).map lowerStr)) := by
  refine ⟨processProject_org_stored hf hn1 hn2, ?_, sortStrings_sorted _⟩
  intro n hn
  exact mem_sortStrings_map_lower hn

/-- Witness for C6: the spec's end-to-end example — `bar/baz` with
primary maintainers `["Zed", "amy"]` is stored under key `baz` as
`["amy", "zed"]`. -/
theorem C6_witness :
    (processProject fetchC6 initMaintainers "bar/baz").Org "baz" =
      some ⟨["amy", "zed"]⟩ := by
  have h := (C6_store_normalized fetchC6 initMaintainers "bar/baz" declC6
    (by decide) (by decide) (by decide)).1
  rw [show (getProjectOrg "bar/baz").2 = "baz" from by decide] at h
  rw [h]
  decide

/-- C7: a project whose fetch/decode fails contributes nothing: the loop
iteration returns the model unchanged, and the whole run computes the
same combined model as a run without that project, so later projects are
unaffected.  (The error log line is a side effect outside this
embedding.) -/
theorem C7_skip_on_failure
    (fetch : String → String → Option MaintainersDepreciated)
    (m : Maintainers) (l1 l2 : List String) (p : String)
    (hf : fetch (getProjectOrg p).1 (getProjectOrg p).2 = none) :
    processProject fetch m p = m ∧
    runAggregate fetch (l1 ++ p :: l2) = runAggregate fetch (l1 ++ l2) := by
  refine ⟨processProject_fetch_none hf, ?_⟩
  have hfold : (l1 ++ p :: l2).foldl (processProject fetch) initMaintainers =
      (l1 ++ l2).foldl (processProject fetch) initMaintainers := by
    rw [List.foldl_append, List.foldl_cons, processProject_fetch_none hf,
      ← List.foldl_append]
  unfold runAggregate
  rw [hfold]

/-- Witness for C7: with an oracle that always fails, processing `bad`
between `x` and `y` is the same as not configuring it at all. -/
theorem C7_witness :
    processProject fetchC7 initMaintainers "bad" = initMaintainers ∧
    runAggregate fetchC7 (["x"] ++ "bad" :: ["y"]) =
      runAggregate fetchC7 (["x"] ++ ["y"]) :=
  C7_skip_on_failure fetchC7 initMaintainers ["x"] ["y"] "bad" (by decide)

/-- C8: after a run (over projects none of which is itself named like a
pseudo-group), the "Curators" and "Docs maintainers" groups are exactly
`removeDuplicates` of the concatenation, in configured order, of the
curators / docs-maintainers lists of the successfully decoded projects;
and `removeDuplicates` depends only on which strings occur, not on their
order or multiplicity. -/
theorem C8_pseudo_groups
    (fetch : String → String → Option MaintainersDepreciated)
    (ps : List String)
    (hn : ∀ p ∈ ps, (getProjectOrg p).2 ≠ "Curators" ∧
      (getProjectOrg p).2 ≠ "Docs maintainers") :
    (runAggregate fetch ps).Org "Curators" =
      some ⟨removeDuplicates (curatorWrites fetch ps)⟩ ∧
    (runAggregate fetch ps).Org "Docs maintainers" =
      some ⟨removeDuplicates (docsWrites fetch ps)⟩ ∧
    (∀ l1 l2 : List String, (∀ x, x ∈ l1 ↔ x ∈ l2) →
      removeDuplicates l1 = removeDuplicates l2) := by
  obtain ⟨hc, hd⟩ := foldl_pseudo ps initMaintainers hn
    initMaintainers_curators initMaintainers_docs
  rw [List.nil_append] at hc hd
  refine ⟨?_, ?_, fun l1 l2 h => removeDuplicates_ext h⟩
  · rw [runAggregate_org_apply, dedupeGroup_of_ne (by decide),
      dedupeGroup_self hc]
  · rw [runAggregate_org_apply]
    have hstep : (dedupeGroup
        ((ps.foldl (processProject fetch) initMaintainers).Org) "Curators")
          "Docs maintainers" = some ⟨docsWrites fetch ps⟩ := by
      rw [dedupeGroup_of_ne (by decide)]
      exact hd
    rw [dedupeGroup_self hstep]

/-- Witness for C8: curators `["Tom"]` then `["Tom", "Sam"]` collapse to
the deduplicated sorted `["Sam", "Tom"]`; the docs list `["Doc"]` stays
as is. -/
theorem C8_witness :
    (runAggregate fetchC8 ["pa", "pb"]).Org "Curators" =
        some ⟨["Sam", "Tom"]⟩ ∧
      (runAggregate fetchC8 ["pa", "pb"]).Org "Docs maintainers" =
        some ⟨["Doc"]⟩ := by
  have h := C8_pseudo_groups fetchC8 ["pa", "pb"] (by decide)
  constructor
  · rw [h.1]
    decide
  · rw [h.2.1]
    decide

/-- C9: the group mapping holds the keys "Curators" and
"Docs maintainers" from the very start (before any project is
processed), and still holds both after any run, whatever the oracle and
the project list do. -/
theorem C9_pseudo_keys_present
    (fetch : String → String → Option MaintainersDepreciated)
    (ps : List String) :
    ((initMaintainers.Org "Curators").isSome = true ∧
      (initMaintainers.Org "Docs maintainers").isSome = true) ∧
    ((runAggregate fetch ps).Org "Curators").isSome = true ∧
    ((runAggregate fetch ps).Org "Docs maintainers").isSome = true := by
  refine ⟨⟨by decide, by decide⟩, ?_, ?_⟩
  · rw [runAggregate_org_apply]
    apply dedupeGroup_isSome
    apply dedupeGroup_isSome
    exact foldl_org_isSome ps initMaintainers _ (by decide)
  · rw [runAggregate_org_apply]
    apply dedupeGroup_isSome
    apply dedupeGroup_isSome
    exact foldl_org_isSome ps initMaintainers _ (by decide)

/-- C10: a successfully decoded declaration with neither a primary nor a
legacy maintainers group still gets its key in the combined model,
mapped to an empty people list. -/
theorem C10_empty_group_still_stored
    (fetch : String → String → Option MaintainersDepreciated)
    (m : Maintainers) (pid : String) (d : MaintainersDepreciated)
    (hf : fetch (getProjectOrg pid).1 (getProjectOrg pid).2 = some d)
    (h1 : d.Organization.Maintainers = none)
    (h2 : d.Organization.CoreMaintainers = none)
    (hn1 : (getProjectOrg pid).2 ≠ "Curators")
    (hn2 : (getProjectOrg pid).2 ≠ "Docs maintainers") :
    (processProject fetch m pid).Org (getProjectOrg pid).2 = some ⟨[]⟩ := by
  rw [processProject_org_stored hf hn1 hn2, projectGroup_empty h1 h2]
  rfl

/-- Witness for C10: `docker/foo` decodes with no maintainers groups at
all, and the model still gains key `foo` with an empty group. -/
theorem C10_witness :
    (processProject fetchC10 initMaintainers "foo").Org "foo" =
      some ⟨[]⟩ :=
  C10_empty_group_still_stored fetchC10 initMaintainers "foo" declC10
    (by decide) rfl rfl (by decide) (by decide)

end MaintainerCollector
